import Mathlib

/-!
# Verification of the JamSkins/fairness provably-fair engine

Shallow embedding of `src/provably-fair.js` (and the variant commitment
function embedded in `src/app.js`), together with theorems settling the
frozen claims about the specification.

JavaScript numbers that hold integers are modelled as `Int` (all the
arithmetic performed by the code stays well inside the exact range of
IEEE doubles); the BigInt sampler arithmetic is exact and is modelled as
`Nat`.  Digest bytes are `List Nat` (each entry a byte value).  The
potentially unbounded rejection-sampling loop is modelled with explicit
fuel: `none` means the fuel ran out before the working set was filled.
-/

/-- `readUInt32BE(buffer, offset)` from `src/provably-fair.js`: the four
bytes at `offset … offset+3` read as a big-endian unsigned 32-bit
integer.  Out-of-range indices read as `0` (in JS the shifted
`undefined`s coerce to `0`); the `>>> 0` wrap is the final `% 2^32`. -/
def readUInt32BE (buffer : List Nat) (offset : Nat) : Nat :=
  (buffer.getD offset 0 * 2 ^ 24 + buffer.getD (offset + 1) 0 * 2 ^ 16 +
    buffer.getD (offset + 2) 0 * 2 ^ 8 + buffer.getD (offset + 3) 0) % 2 ^ 32

/-- The errors thrown by `src/provably-fair.js`, one constructor per
`throw` site: `'count must be > 0'`, `'upper must be ≥ lower'`,
`` `Cannot generate ${count} unique numbers from range of ${totalRange}` ``
and `'Failed to generate any numbers'`. -/
inductive JsError where
  | countNonpos
  | invalidBounds
  | countExceedsRange
  | noNumbers
deriving DecidableEq, Repr

/-- The per-call constants of the sampling loop of
`getUniqueNumbersFromRange`: the HMAC oracle, the key (`serverSeed`),
`baseMsg`, the BigInt modulus `range`, the rejection `limit`, the range
offset `lower` and the number of distinct values to collect. -/
structure LoopEnv where
  hmac : String → String → List Nat
  serverSeed : String
  baseMsg : String
  range : Nat
  limit : Nat
  lower : Int
  targetCount : Nat

/-- The mutable state of the sampling loop: the accumulated digest
buffer, the byte cursor, the index of the last generated block and the
working set (a JS `Set` iterates in insertion order, so a duplicate-free
list). -/
structure LoopState where
  digest : List Nat
  cursor : Nat
  digestIndex : Nat
  results : List Int

/-- `limit = MAX_UINT32 - (MAX_UINT32 % range)` with
`MAX_UINT32 = 0xffffffff = 2^32 - 1`, computed in exact (BigInt)
arithmetic, from `src/provably-fair.js` lines 119-121. -/
def limitOf (range : Nat) : Nat :=
  (2 ^ 32 - 1) - (2 ^ 32 - 1) % range

/-- One iteration of the `while (results.size < targetCount)` body of
`getUniqueNumbersFromRange`: extend the digest buffer with the next
block when fewer than 4 bytes remain, read the next 4-byte big-endian
word, advance the cursor, and on acceptance insert the mapped value into
the working set (a JS `Set.add` of a present element is a no-op). -/
def step (env : LoopEnv) (st : LoopState) : LoopState :=
  let st1 :=
    if st.cursor + 4 > st.digest.length then
      { st with
        digestIndex := st.digestIndex + 1
        digest := st.digest ++
          env.hmac env.serverSeed (env.baseMsg ++ ":" ++ toString (st.digestIndex + 1)) }
    else st
  let num := readUInt32BE st1.digest st1.cursor
  let st2 := { st1 with cursor := st1.cursor + 4 }
  if num < env.limit then
    let r : Int := (num % env.range : Nat) + env.lower
    if st2.results.contains r then st2
    else { st2 with results := st2.results ++ [r] }
  else st2

/-- The sampling loop: run `step` until the working set holds
`targetCount` values, or give up (`none`) when the fuel runs out. -/
def sampleLoop (env : LoopEnv) : Nat → LoopState → Option (List Int)
  | fuel, st =>
    if st.results.length < env.targetCount then
      match fuel with
      | 0 => none
      | fuel + 1 => sampleLoop env fuel (step env st)
    else some st.results

/-- The initial loop state: the buffer holds block 0,
`HMAC(serverSeed, baseMsg)`. -/
def initState (env : LoopEnv) : LoopState :=
  { digest := env.hmac env.serverSeed env.baseMsg
    cursor := 0
    digestIndex := 0
    results := [] }

/-- The loop environment `getUniqueNumbersFromRange` builds from its
arguments: `baseMsg` is `` `${clientSeed}:${nonce}` ``, the modulus is
`totalRange = upper - lower + 1`, the limit is `limitOf totalRange`, and
`targetCount` is `totalRange - count` on the inversion path
(`count > totalRange / 2`) and `count` otherwise. -/
def mkEnv (hmac : String → String → List Nat) (count : Int) (rng : Int × Int)
    (serverSeed : String) (nonce : Nat) (clientSeed : String) : LoopEnv :=
  let lower := rng.1
  let upper := rng.2
  let totalRange : Int := upper - lower + 1
  let targetCount : Int := if 2 * count > totalRange then totalRange - count else count
  { hmac := hmac
    serverSeed := serverSeed
    baseMsg := clientSeed ++ ":" ++ toString nonce
    range := totalRange.toNat
    limit := limitOf totalRange.toNat
    lower := lower
    targetCount := targetCount.toNat }

/-- The inversion path's final loop
(`for i = lower; i <= upper; i += 1  if (!excluded.has(i)) push i`):
every value of the range, in increasing order, that is not in the
working set. -/
def invertResults (lower : Int) (totalRange : Nat) (excluded : List Int) : List Int :=
  ((List.range totalRange).map (fun (i : Nat) => lower + (i : Int))).filter
    (fun x => !excluded.contains x)

/-- `getUniqueNumbersFromRange` from `src/provably-fair.js`,
parameterised by the HMAC oracle and by fuel for the sampling loop.
`.error e` models a `throw`; `.ok none` means the loop's fuel ran out
(the JS loop simply has not terminated yet at that point). -/
def getUniqueNumbersFromRange (hmac : String → String → List Nat) (fuel : Nat)
    (count : Int) (rng : Int × Int) (serverSeed : String) (nonce : Nat)
    (clientSeed : String) : Except JsError (Option (List Int)) :=
  if count ≤ 0 then .error .countNonpos
  else
    let lower := rng.1
    let upper := rng.2
    if upper < lower then .error .invalidBounds
    else
      let totalRange : Int := upper - lower + 1
      if count > totalRange then .error .countExceedsRange
      else
        let env := mkEnv hmac count rng serverSeed nonce clientSeed
        match sampleLoop env fuel (initState env) with
        | none => .ok none
        | some results =>
          .ok (some (if 2 * count > totalRange then
            invertResults lower totalRange.toNat results
          else results))

/-- `getNumberFromRange` from `src/provably-fair.js`: a single call to
`getUniqueNumbersFromRange` with `count = 1`; an empty result array
would raise `'Failed to generate any numbers'`, otherwise the first
element is returned. -/
def getNumberFromRange (hmac : String → String → List Nat) (fuel : Nat)
    (rng : Int × Int) (serverSeed : String) (nonce : Nat)
    (clientSeed : String) : Except JsError (Option Int) :=
  match getUniqueNumbersFromRange hmac fuel 1 rng serverSeed nonce clientSeed with
  | .error e => .error e
  | .ok none => .ok none
  | .ok (some numbers) =>
    if numbers.length = 0 then .error .noNumbers
    else .ok (some (numbers.getD 0 0))

/-- A stand-in HMAC oracle for concrete witness runs: every digest is
the 32 bytes `0, 1, …, 31`. -/
def toyHmac : String → String → List Nat := fun _ _ => List.range 32

/-!
## SHA-256 and HMAC-SHA256

Modelled from the spec: the repository calls an external HMAC primitive
(`crypto.subtle` / `CryptoJS.HmacSHA256`, see `createHmac` in
`src/provably-fair.js`), whose implementation is not part of the
repository.  The spec fixes it as "HMAC using a 256-bit-output hash
function" over UTF-8 encoded strings, i.e. standard HMAC-SHA256
(FIPS 180-4 / RFC 2104), embedded here so that concrete digests can be
computed. -/

/-- Rotate a 32-bit word right by `n` bits (the low bits wrap to the top). -/
def rotr32 (x n : Nat) : Nat :=
  (x % 2 ^ n) * 2 ^ (32 - n) + x / 2 ^ n

/-- The SHA-256 choice function `Ch(x,y,z)`. -/
def shaCh (x y z : Nat) : Nat := (x &&& y) ^^^ ((x ^^^ 0xffffffff) &&& z)

/-- The SHA-256 majority function `Maj(x,y,z)`. -/
def shaMaj (x y z : Nat) : Nat := (x &&& y) ^^^ (x &&& z) ^^^ (y &&& z)

/-- SHA-256 `Σ0`. -/
def bSig0 (x : Nat) : Nat := rotr32 x 2 ^^^ rotr32 x 13 ^^^ rotr32 x 22

/-- SHA-256 `Σ1`. -/
def bSig1 (x : Nat) : Nat := rotr32 x 6 ^^^ rotr32 x 11 ^^^ rotr32 x 25

/-- SHA-256 `σ0`. -/
def sSig0 (x : Nat) : Nat := rotr32 x 7 ^^^ rotr32 x 18 ^^^ x / 2 ^ 3

/-- SHA-256 `σ1`. -/
def sSig1 (x : Nat) : Nat := rotr32 x 17 ^^^ rotr32 x 19 ^^^ x / 2 ^ 10

/-- The 64 round constants of SHA-256 (FIPS 180-4, in decimal). -/
def shaK : List Nat :=
  [1116352408, 1899447441, 3049323471, 3921009573, 961987163, 1508970993,
   2453635748, 2870763221, 3624381080, 310598401, 607225278, 1426881987,
   1925078388, 2162078206, 2614888103, 3248222580, 3835390401, 4022224774,
   264347078, 604807628, 770255983, 1249150122, 1555081692, 1996064986,
   2554220882, 2821834349, 2952996808, 3210313671, 3336571891, 3584528711,
   113926993, 338241895, 666307205, 773529912, 1294757372, 1396182291,
   1695183700, 1986661051, 2177026350, 2456956037, 2730485921, 2820302411,
   3259730800, 3345764771, 3516065817, 3600352804, 4094571909, 275423344,
   430227734, 506948616, 659060556, 883997877, 958139571, 1322822218,
   1537002063, 1747873779, 1955562222, 2024104815, 2227730452, 2361852424,
   2428436474, 2756734187, 3204031479, 3329325298]

/-- The eight 32-bit working variables of a SHA-256 state. -/
structure Sha8 where
  a : Nat
  b : Nat
  c : Nat
  d : Nat
  e : Nat
  f : Nat
  g : Nat
  h : Nat

/-- The initial SHA-256 chaining value (FIPS 180-4, in decimal). -/
def shaInit : Sha8 :=
  ⟨1779033703, 3144134277, 1013904242, 2773480762,
   1359893119, 2600822924, 528734635, 1541459225⟩

/-- A 4-byte big-endian word of a message block. -/
def wordBE (block : List Nat) (offset : Nat) : Nat :=
  block.getD offset 0 * 2 ^ 24 + block.getD (offset + 1) 0 * 2 ^ 16 +
    block.getD (offset + 2) 0 * 2 ^ 8 + block.getD (offset + 3) 0

/-- Extend the 16 block words to the 64-entry message schedule. -/
def scheduleW (w16 : List Nat) : List Nat :=
  (List.range 48).foldl
    (fun w i =>
      w ++ [(sSig1 (w.getD (i + 14) 0) + w.getD (i + 9) 0 +
             sSig0 (w.getD (i + 1) 0) + w.getD i 0) % 2 ^ 32])
    w16

/-- One SHA-256 compression round, fed a pair of round constant and
schedule word. -/
def shaRound (s : Sha8) (kw : Nat × Nat) : Sha8 :=
  let t1 := (s.h + bSig1 s.e + shaCh s.e s.f s.g + kw.1 + kw.2) % 2 ^ 32
  let t2 := (bSig0 s.a + shaMaj s.a s.b s.c) % 2 ^ 32
  ⟨(t1 + t2) % 2 ^ 32, s.a, s.b, s.c, (s.d + t1) % 2 ^ 32, s.e, s.f, s.g⟩

/-- Compress one 64-byte block into the running state. -/
def compressBlock (s : Sha8) (block : List Nat) : Sha8 :=
  let w16 := (List.range 16).map (fun i => wordBE block (4 * i))
  let f := (shaK.zip (scheduleW w16)).foldl shaRound s
  ⟨(s.a + f.a) % 2 ^ 32, (s.b + f.b) % 2 ^ 32, (s.c + f.c) % 2 ^ 32, (s.d + f.d) % 2 ^ 32,
   (s.e + f.e) % 2 ^ 32, (s.f + f.f) % 2 ^ 32, (s.g + f.g) % 2 ^ 32, (s.h + f.h) % 2 ^ 32⟩

/-- `k` big-endian bytes of a number, most significant first. -/
def beBytes : Nat → Nat → List Nat
  | 0, _ => []
  | k + 1, n => beBytes k (n / 256) ++ [n % 256]

/-- SHA-256 padding: `0x80`, zeros to 56 mod 64, then the bit length as
8 big-endian bytes. -/
def padMsg (msg : List Nat) : List Nat :=
  let L := msg.length
  let z := (120 - (L + 1) % 64) % 64
  msg ++ [0x80] ++ List.replicate z 0 ++ beBytes 8 (8 * L)

/-- Split a byte list into 64-byte blocks (the fuel argument, set to the
list length, only serves structural termination). -/
def chunk64 : Nat → List Nat → List (List Nat)
  | 0, _ => []
  | _, [] => []
  | fuel + 1, l => l.take 64 :: chunk64 fuel (l.drop 64)

/-- SHA-256 of a byte list. -/
def sha256 (msg : List Nat) : List Nat :=
  let p := padMsg msg
  let s := (chunk64 p.length p).foldl compressBlock shaInit
  beBytes 4 s.a ++ beBytes 4 s.b ++ beBytes 4 s.c ++ beBytes 4 s.d ++
    beBytes 4 s.e ++ beBytes 4 s.f ++ beBytes 4 s.g ++ beBytes 4 s.h

/-- HMAC-SHA256 over byte lists (RFC 2104 with a 64-byte block size). -/
def hmacSHA256 (key msg : List Nat) : List Nat :=
  let k0 := if 64 < key.length then sha256 key else key
  let kp := k0 ++ List.replicate (64 - k0.length) 0
  sha256 ((kp.map (fun b => b ^^^ 0x5c)) ++ sha256 ((kp.map (fun b => b ^^^ 0x36)) ++ msg))

/-- UTF-8 encoding of one character (what `TextEncoder`/`CryptoJS`
apply to the string arguments before hashing). -/
def utf8Bytes (c : Char) : List Nat :=
  let n := c.toNat
  if n < 0x80 then [n]
  else if n < 0x800 then [0xc0 + n / 0x40, 0x80 + n % 0x40]
  else if n < 0x10000 then
    [0xe0 + n / 0x1000, 0x80 + n / 0x40 % 0x40, 0x80 + n % 0x40]
  else
    [0xf0 + n / 0x40000, 0x80 + n / 0x1000 % 0x40, 0x80 + n / 0x40 % 0x40, 0x80 + n % 0x40]

/-- UTF-8 encoding of a character list. -/
def charListBytes : List Char → List Nat
  | [] => []
  | c :: cs => utf8Bytes c ++ charListBytes cs

/-- UTF-8 bytes of a string. -/
def strBytes (s : String) : List Nat := charListBytes s.data

/-- A lowercase hexadecimal digit, as produced by JS
`b.toString(16)`. -/
def hexDigit (n : Nat) : Char :=
  if n < 10 then Char.ofNat (48 + n) else Char.ofNat (87 + n)

/-- Two lowercase hex digits per byte
(`b.toString(16).padStart(2, '0')`). -/
def bytesToHexChars : List Nat → List Char
  | [] => []
  | b :: bs => hexDigit (b / 16) :: hexDigit (b % 16) :: bytesToHexChars bs

/-- Lowercase hex encoding of a byte list (both the `CryptoJS`
`.toString()` and the explicit `map`/`padStart`/`join` branch of
`getHashBySeed` produce exactly this). -/
def bytesToHex (l : List Nat) : String := String.mk (bytesToHexChars l)

/-- The real HMAC oracle over strings: UTF-8 encode both arguments and
apply HMAC-SHA256. -/
def hmacStr (key msg : String) : List Nat := hmacSHA256 (strBytes key) (strBytes msg)

/-!
## The seed-commitment salt

`getHashBySeed` derives its salt with `seed.match(/.{1,2}/g)`.  The JS
`.` pattern matches every character except the four line terminators
`\n`, `\r`, U+2028 and U+2029, so the regex scan skips line terminators
and collects runs of one or two non-terminator characters; `match`
returns `null` (and the `?? seed` default kicks in) exactly when no
chunk exists. -/

/-- The four JS line terminators, which `.` does not match. -/
def isLineTerm (c : Char) : Bool :=
  c = '\n' || c = '\r' || c = Char.ofNat 0x2028 || c = Char.ofNat 0x2029

/-- The chunk list produced by the global regex match `/.{1,2}/g`: at a
line terminator the scan moves on one character; otherwise it greedily
takes two characters when the second one is not a line terminator, and
one character when it is (or at the end of the string). -/
def jsChunks : List Char → List (List Char)
  | [] => []
  | [c] => if isLineTerm c then [] else [[c]]
  | c :: c2 :: rest =>
    if isLineTerm c then jsChunks (c2 :: rest)
    else if isLineTerm c2 then [c] :: jsChunks (c2 :: rest)
    else [c, c2] :: jsChunks rest

/-- The salt of `getHashBySeed`:
`seed.match(/.{1,2}/g)?.reverse().join('') ?? seed`. -/
def saltOf (seed : String) : String :=
  let chunks := jsChunks seed.data
  if chunks.isEmpty then seed
  else String.mk chunks.reverse.flatten

/-- Modelled from the spec: the salt derivation as §4.5 words it —
"splitting `seed` into consecutive 2-character chunks (the final chunk
may be shorter than 2 characters if `seed` has odd length)".  Used only
to compare the code's salt against the spec's. -/
def specChunks : List Char → List (List Char)
  | [] => []
  | [c] => [[c]]
  | c :: c2 :: rest => [c, c2] :: specChunks rest

/-- Modelled from the spec: the spec's salt — the 2-character chunks
concatenated in reverse order (the empty seed has no chunks and yields
the empty salt, i.e. the seed itself). -/
def saltSpec (seed : String) : String :=
  String.mk (specChunks seed.data).reverse.flatten

/-- `getHashBySeed` from `src/provably-fair.js`: both runtime branches
compute the keyed hash with key `seed + salt` and empty message
(`CryptoJS.HmacSHA256('', seed + salt)` — in crypto-js the message is
the first argument — and `createHmac(seed + salt, '')`), rendered as
lowercase hex. -/
def getHashBySeed (seed : String) : String :=
  let salt := saltOf seed
  bytesToHex (hmacStr (seed ++ salt) "")

/-- The `getHashBySeed` variant embedded in `src/app.js` (lines
647-659): both of its branches key the hash on `seed` and hash the
message `seed + salt` (`CryptoJS.HmacSHA256(seed + salt, seed)` and
`createHmac(seed, seed + salt)`). -/
def appGetHashBySeed (seed : String) : String :=
  let salt := saltOf seed
  bytesToHex (hmacStr seed (seed ++ salt))

/-!
## The digest stream

Block-level view of the byte stream the sampling loop consumes, for the
statements about which HMAC invocations are made and in which order. -/

/-- The message hashed for block `i` of the stream: `baseMsg` for block
0 and `` `${baseMsg}:${i}` `` for the blocks the loop appends. -/
def blockMsg (baseMsg : String) (i : Nat) : String :=
  if i = 0 then baseMsg else baseMsg ++ ":" ++ toString i

/-- The concatenation of the digests of blocks `0 … n-1`, all keyed by
`serverSeed`. -/
def concatDigests (hmac : String → String → List Nat)
    (serverSeed baseMsg : String) (n : Nat) : List Nat :=
  ((List.range n).map (fun i => hmac serverSeed (blockMsg baseMsg i))).flatten

/-- The state of the sampling loop after `n` iterations of its body. -/
def stepIter (env : LoopEnv) : Nat → LoopState
  | 0 => initState env
  | n + 1 => step env (stepIter env n)

/-- Word `n` of the digest stream: the 4-byte big-endian word at byte
offset `4*n` of the concatenated digests (with 32-byte digests, word `n`
lies inside block `n / 8`). -/
def streamWord (hmac : String → String → List Nat)
    (serverSeed baseMsg : String) (n : Nat) : Nat :=
  readUInt32BE (concatDigests hmac serverSeed baseMsg (n / 8 + 1)) (4 * n)

/-- Insert a drawn value into the working set: a value already present
is dropped, a new value goes to the back (JS `Set` insertion order). -/
def insertDraw (acc : List Int) (r : Int) : List Int :=
  if acc.contains r then acc else acc ++ [r]

/-- The working set produced by a sequence of draws: each value kept at
its first occurrence, in draw order. -/
def dedupFirst (l : List Int) : List Int := l.foldl insertDraw []

/-- The accepted draws among the first `n` words of the digest stream,
in stream order: word `v` survives the rejection test `v < limit` and
maps to `v mod range + lower`. -/
def acceptedDraws (env : LoopEnv) (n : Nat) : List Int :=
  ((List.range n).map (fun i => streamWord env.hmac env.serverSeed env.baseMsg i)).filterMap
    (fun v => if v < env.limit then some (((v % env.range : Nat) : Int) + env.lower) else none)

/-- A concrete loop environment for witness runs. -/
def c1Env : LoopEnv :=
  { hmac := toyHmac, serverSeed := "s", baseMsg := "c:0", range := 10,
    limit := limitOf 10, lower := 0, targetCount := 2 }

theorem step_results_cases (env : LoopEnv) (st : LoopState) (hr : 0 < env.range) :
    (step env st).results = st.results ∨
    ∃ r : Int, (step env st).results = st.results ++ [r] ∧ r ∉ st.results ∧
      env.lower ≤ r ∧ r < env.lower + (env.range : Int) := by
  have hb : ∀ num : Nat, env.lower ≤ ((num % env.range : Nat) : Int) + env.lower ∧
      ((num % env.range : Nat) : Int) + env.lower < env.lower + (env.range : Int) := by
    intro num
    have h1 : (0 : Int) ≤ ((num % env.range : Nat) : Int) := Int.natCast_nonneg _
    have h2 : ((num % env.range : Nat) : Int) < (env.range : Int) := by
      exact_mod_cast Nat.mod_lt num hr
    omega
  simp only [step]
  split
  · split
    · split
      · exact .inl rfl
      · next h =>
          refine .inr ⟨_, rfl, ?_, (hb _).1, (hb _).2⟩
          simpa [List.elem_iff] using h
    · exact .inl rfl
  · split
    · split
      · exact .inl rfl
      · next h =>
          refine .inr ⟨_, rfl, ?_, (hb _).1, (hb _).2⟩
          simpa [List.elem_iff] using h
    · exact .inl rfl

theorem sampleLoop_some (env : LoopEnv) (hr : 0 < env.range) :
    ∀ (fuel : Nat) (st : LoopState) (res : List Int),
      sampleLoop env fuel st = some res →
      st.results.Nodup →
      (∀ x ∈ st.results, env.lower ≤ x ∧ x < env.lower + (env.range : Int)) →
      st.results.length ≤ env.targetCount →
      res.Nodup ∧ res.length = env.targetCount ∧
        ∀ x ∈ res, env.lower ≤ x ∧ x < env.lower + (env.range : Int) := by
  intro fuel
  induction fuel with
  | zero =>
    intro st res hrun hnd hbd hlen
    rw [sampleLoop] at hrun
    split at hrun
    · simp at hrun
    · next h =>
      obtain rfl : st.results = res := by simpa using hrun
      exact ⟨hnd, by omega, hbd⟩
  | succ fuel ih =>
    intro st res hrun hnd hbd hlen
    rw [sampleLoop] at hrun
    split at hrun
    · next h =>
      rcases step_results_cases env st hr with hsame | ⟨r, heq, hnew, hlo, hhi⟩
      · refine ih (step env st) res hrun ?_ ?_ ?_
        · rw [hsame]; exact hnd
        · rw [hsame]; exact hbd
        · rw [hsame]; omega
      · refine ih (step env st) res hrun ?_ ?_ ?_
        · rw [heq]; simp [List.nodup_append, hnd, hnew]
        · rw [heq]; intro x hx
          rcases List.mem_append.mp hx with hx | hx
          · exact hbd x hx
          · simp at hx; subst hx; exact ⟨hlo, hhi⟩
        · rw [heq]; simp; omega
    · next h =>
      obtain rfl : st.results = res := by simpa using hrun
      exact ⟨hnd, by omega, hbd⟩

theorem mem_rangeMap {lower : Int} {N : Nat} {x : Int} :
    x ∈ (List.range N).map (fun (i : Nat) => lower + (i : Int)) ↔
      lower ≤ x ∧ x < lower + (N : Int) := by
  simp only [List.mem_map, List.mem_range]
  constructor
  · rintro ⟨i, hi, rfl⟩
    have h1 : (0 : Int) ≤ (i : Int) := Int.natCast_nonneg _
    have h2 : (i : Int) < (N : Int) := by exact_mod_cast hi
    omega
  · rintro ⟨h1, h2⟩
    refine ⟨(x - lower).toNat, ?_, ?_⟩ <;> omega

theorem nodup_rangeMap (lower : Int) (N : Nat) :
    ((List.range N).map (fun (i : Nat) => lower + (i : Int))).Nodup := by
  refine (List.nodup_range N).map ?_
  intro a b hab
  have h : lower + (a : Int) = lower + (b : Int) := hab
  omega

theorem invertResults_mem {lower : Int} {N : Nat} {ex : List Int} {x : Int} :
    x ∈ invertResults lower N ex ↔ lower ≤ x ∧ x < lower + (N : Int) ∧ x ∉ ex := by
  unfold invertResults
  simp only [List.mem_filter, mem_rangeMap, Bool.not_eq_true', ← Bool.not_eq_true,
    List.elem_iff, and_assoc]

theorem invertResults_nodup (lower : Int) (N : Nat) (ex : List Int) :
    (invertResults lower N ex).Nodup :=
  (nodup_rangeMap lower N).filter _

theorem invertResults_sorted (lower : Int) (N : Nat) (ex : List Int) :
    (invertResults lower N ex).Pairwise (· < ·) := by
  have hp : ((List.range N).map (fun (i : Nat) => lower + (i : Int))).Pairwise (· < ·) := by
    refine List.Pairwise.map _ ?_ (List.pairwise_lt_range N)
    intro a b hab
    omega
  exact hp.sublist (List.filter_sublist _)

theorem invertResults_length (lower : Int) (N : Nat) (ex : List Int)
    (hnd : ex.Nodup) (hbd : ∀ x ∈ ex, lower ≤ x ∧ x < lower + (N : Int)) :
    (invertResults lower N ex).length = N - ex.length := by
  classical
  set l := (List.range N).map (fun (i : Nat) => lower + (i : Int)) with hl
  have hlen : l.length = N := by simp [hl]
  have hnl : l.Nodup := nodup_rangeMap lower N
  have hsplit : l.length =
      (l.filter (fun x => ex.contains x)).length +
        (l.filter (fun x => !ex.contains x)).length :=
    List.length_eq_length_filter_add _
  have hperm : (l.filter (fun x => ex.contains x)).Perm ex := by
    rw [List.perm_ext_iff_of_nodup (hnl.filter _) hnd]
    intro a
    simp only [List.mem_filter, hl, mem_rangeMap, List.elem_iff]
    constructor
    · rintro ⟨_, h⟩
      simpa [List.elem_iff] using h
    · intro h
      exact ⟨hbd a h, by simpa [List.elem_iff] using h⟩
  have hflen : (l.filter (fun x => ex.contains x)).length = ex.length := hperm.length_eq
  have hinv : (invertResults lower N ex).length = (l.filter (fun x => !ex.contains x)).length := by
    simp [invertResults, hl]
  omega

theorem mkEnv_range (hmac : String → String → List Nat) (count : Int) (rng : Int × Int)
    (serverSeed : String) (nonce : Nat) (clientSeed : String) :
    (mkEnv hmac count rng serverSeed nonce clientSeed).range = (rng.2 - rng.1 + 1).toNat := rfl

theorem mkEnv_lower (hmac : String → String → List Nat) (count : Int) (rng : Int × Int)
    (serverSeed : String) (nonce : Nat) (clientSeed : String) :
    (mkEnv hmac count rng serverSeed nonce clientSeed).lower = rng.1 := rfl

theorem mkEnv_baseMsg (hmac : String → String → List Nat) (count : Int) (rng : Int × Int)
    (serverSeed : String) (nonce : Nat) (clientSeed : String) :
    (mkEnv hmac count rng serverSeed nonce clientSeed).baseMsg =
      clientSeed ++ ":" ++ toString nonce := rfl

theorem mkEnv_target (hmac : String → String → List Nat) (count : Int) (rng : Int × Int)
    (serverSeed : String) (nonce : Nat) (clientSeed : String) :
    (mkEnv hmac count rng serverSeed nonce clientSeed).targetCount =
      (if 2 * count > rng.2 - rng.1 + 1 then rng.2 - rng.1 + 1 - count else count).toNat := rfl

theorem getUnique_eq_run (hmac : String → String → List Nat) (fuel : Nat) (count : Int)
    (rng : Int × Int) (serverSeed : String) (nonce : Nat) (clientSeed : String)
    (h1 : 0 < count) (h2 : rng.1 ≤ rng.2) (h3 : count ≤ rng.2 - rng.1 + 1) :
    getUniqueNumbersFromRange hmac fuel count rng serverSeed nonce clientSeed =
      match sampleLoop (mkEnv hmac count rng serverSeed nonce clientSeed) fuel
          (initState (mkEnv hmac count rng serverSeed nonce clientSeed)) with
      | none => .ok none
      | some results =>
        .ok (some (if 2 * count > rng.2 - rng.1 + 1 then
          invertResults rng.1 (rng.2 - rng.1 + 1).toNat results
        else results)) := by
  unfold getUniqueNumbersFromRange
  rw [if_neg (by omega), if_neg (by omega), if_neg (by omega)]
  try rfl

theorem step_cursor (env : LoopEnv) (st : LoopState) :
    (step env st).cursor = st.cursor + 4 := by
  simp only [step]
  split
  · split
    · split
      · rfl
      · rfl
    · rfl
  · split
    · split
      · rfl
      · rfl
    · rfl

/-- C2 helper: the full behaviour of a successful run. -/
theorem getUnique_ok_spec (hmac : String → String → List Nat) (fuel : Nat)
    (count lower upper : Int) (serverSeed : String) (nonce : Nat) (clientSeed : String)
    (res : List Int)
    (h1 : 0 < count) (h2 : lower ≤ upper) (h3 : count ≤ upper - lower + 1)
    (hrun : getUniqueNumbersFromRange hmac fuel count (lower, upper) serverSeed nonce clientSeed
      = .ok (some res)) :
    res.length = count.toNat ∧ res.Nodup ∧ ∀ x ∈ res, lower ≤ x ∧ x ≤ upper := by
  rw [getUnique_eq_run hmac fuel count (lower, upper) serverSeed nonce clientSeed h1
    (by simpa using h2) (by simpa using h3)] at hrun
  set env := mkEnv hmac count (lower, upper) serverSeed nonce clientSeed with henv
  have hrange : env.range = (upper - lower + 1).toNat := rfl
  have hlower : env.lower = lower := rfl
  have htc : env.targetCount =
      (if 2 * count > upper - lower + 1 then upper - lower + 1 - count else count).toNat := rfl
  have hr : 0 < env.range := by rw [hrange]; omega
  cases hloop : sampleLoop env fuel (initState env) with
  | none => rw [hloop] at hrun; simp at hrun
  | some r =>
    rw [hloop] at hrun
    dsimp only at hrun
    obtain ⟨hnd, hlen, hbd⟩ :=
      sampleLoop_some env hr fuel (initState env) r hloop (by simp [initState])
        (by simp [initState]) (by simp [initState])
    have hbd' : ∀ x ∈ r, lower ≤ x ∧ x < lower + ((upper - lower + 1).toNat : Int) := by
      intro x hx
      have := hbd x hx
      rw [hlower, hrange] at this
      exact this
    by_cases hinv : 2 * count > upper - lower + 1
    · rw [if_pos hinv] at hrun
      obtain rfl : invertResults lower (upper - lower + 1).toNat r = res := by
        simpa using hrun
      refine ⟨?_, invertResults_nodup _ _ _, ?_⟩
      · rw [invertResults_length lower _ r hnd hbd', hlen, htc, if_pos hinv]
        omega
      · intro x hx
        obtain ⟨ha, hb, _⟩ := invertResults_mem.mp hx
        constructor
        · exact ha
        · omega
    · rw [if_neg hinv] at hrun
      obtain rfl : r = res := by simpa using hrun
      refine ⟨?_, hnd, ?_⟩
      · rw [hlen, htc, if_neg hinv]
      · intro x hx
        have := hbd' x hx
        constructor
        · exact this.1
        · omega

/-- C6 helper: error characterisation of `getUniqueNumbersFromRange`. -/
theorem getUnique_error_spec (hmac : String → String → List Nat) (fuel : Nat)
    (count lower upper : Int) (serverSeed : String) (nonce : Nat) (clientSeed : String) :
    (getUniqueNumbersFromRange hmac fuel count (lower, upper) serverSeed nonce clientSeed =
        .error .countNonpos ↔ count ≤ 0) ∧
    (getUniqueNumbersFromRange hmac fuel count (lower, upper) serverSeed nonce clientSeed =
        .error .invalidBounds ↔ (0 < count ∧ upper < lower)) ∧
    (getUniqueNumbersFromRange hmac fuel count (lower, upper) serverSeed nonce clientSeed =
        .error .countExceedsRange ↔ (0 < count ∧ lower ≤ upper ∧ upper - lower + 1 < count)) ∧
    (getUniqueNumbersFromRange hmac fuel count (lower, upper) serverSeed nonce clientSeed ≠
        .error .noNumbers) ∧
    (0 < count → lower ≤ upper → count ≤ upper - lower + 1 →
      ∃ v, getUniqueNumbersFromRange hmac fuel count (lower, upper) serverSeed nonce clientSeed
        = .ok v) := by
  by_cases hc : count ≤ 0
  · have hres : getUniqueNumbersFromRange hmac fuel count (lower, upper) serverSeed nonce
        clientSeed = .error .countNonpos := by
      simp [getUniqueNumbersFromRange, hc]
    refine ⟨by simp [hres, hc], iff_of_false (by simp [hres]) (by omega),
      iff_of_false (by simp [hres]) (by omega), by simp [hres],
      fun h1 _ _ => absurd h1 (by omega)⟩
  · by_cases hb : upper < lower
    · have hres : getUniqueNumbersFromRange hmac fuel count (lower, upper) serverSeed nonce
          clientSeed = .error .invalidBounds := by
        simp [getUniqueNumbersFromRange, hc, hb]
      refine ⟨iff_of_false (by simp [hres]) (by omega), by simp [hres]; omega,
        iff_of_false (by simp [hres]) (by omega), by simp [hres],
        fun _ h2 _ => absurd h2 (by omega)⟩
    · by_cases ht : count > upper - lower + 1
      · have hres : getUniqueNumbersFromRange hmac fuel count (lower, upper) serverSeed nonce
            clientSeed = .error .countExceedsRange := by
          simp [getUniqueNumbersFromRange, hc, hb, ht]
        refine ⟨iff_of_false (by simp [hres]) (by omega), iff_of_false (by simp [hres]) (by omega),
          by simp [hres]; omega, by simp [hres],
          fun _ _ h3 => absurd h3 (by omega)⟩
      · obtain ⟨v, hres⟩ : ∃ v, getUniqueNumbersFromRange hmac fuel count (lower, upper)
            serverSeed nonce clientSeed = .ok v := by
          rw [getUnique_eq_run hmac fuel count (lower, upper) serverSeed nonce clientSeed
            (by omega) (by simp; omega) (by simp; omega)]
          cases sampleLoop (mkEnv hmac count (lower, upper) serverSeed nonce clientSeed) fuel
              (initState (mkEnv hmac count (lower, upper) serverSeed nonce clientSeed)) with
          | none => exact ⟨none, rfl⟩
          | some r => exact ⟨some _, rfl⟩
        refine ⟨iff_of_false (by simp [hres]) (by omega), iff_of_false (by simp [hres]) (by omega),
          iff_of_false (by simp [hres]) (by omega), by simp [hres], fun _ _ _ => ⟨v, hres⟩⟩

/-- C1, counterexample: the claim states the sampler computes
`limit = floor(2^32 / range) * range`; at `range = 2` the code's limit
`(2^32-1) - ((2^32-1) % 2) = 4294967294` differs from
`floor(2^32 / 2) * 2 = 4294967296`, so values `4294967294` and
`4294967295` are rejected although the claimed limit would accept
them. -/
theorem C1_claimed_limit_counterexample : limitOf 2 ≠ 2 ^ 32 / 2 * 2 := by decide

/-- C1, amended: for every positive modulus `range` fitting in 32 bits,
the sampler computes `limit = (2^32-1) - ((2^32-1) mod range)`, the
largest multiple of `range` not exceeding `2^32 - 1` (this equals
`floor(2^32/range)*range` exactly when `range` does not divide `2^32`);
a buffered 4-byte big-endian word `v` is accepted iff `v < limit`, an
accepted `v` contributes the sampled value `v mod range` (offset by
`lower`, dropped if already drawn), and a rejected `v` advances the
cursor by its 4 bytes without emitting a value. -/
theorem C1_sampler_amended (range : Nat) (env : LoopEnv) (st : LoopState)
    (h1 : 0 < range) (henv : env.range = range) (hlim : env.limit = limitOf range)
    (hbuf : st.cursor + 4 ≤ st.digest.length) :
    limitOf range = (2 ^ 32 - 1) / range * range ∧
    range ∣ limitOf range ∧
    limitOf range ≤ 2 ^ 32 - 1 ∧
    (∀ m : Nat, range ∣ m → m ≤ 2 ^ 32 - 1 → m ≤ limitOf range) ∧
    (step env st).cursor = st.cursor + 4 ∧
    (readUInt32BE st.digest st.cursor < env.limit →
      (step env st).results =
        if st.results.contains (((readUInt32BE st.digest st.cursor % range : Nat) : Int) + env.lower)
          then st.results
          else st.results ++ [((readUInt32BE st.digest st.cursor % range : Nat) : Int) + env.lower]) ∧
    (env.limit ≤ readUInt32BE st.digest st.cursor → (step env st).results = st.results) := by
  subst henv
  have hdm := Nat.div_add_mod (2 ^ 32 - 1) env.range
  have hA : limitOf env.range = (2 ^ 32 - 1) / env.range * env.range := by
    unfold limitOf
    rw [Nat.mul_comm ((2 ^ 32 - 1) / env.range) env.range]
    omega
  refine ⟨hA, ?_, ?_, ?_, step_cursor env st, ?_, ?_⟩
  · rw [hA]; exact dvd_mul_left env.range ((2 ^ 32 - 1) / env.range)
  · unfold limitOf; exact Nat.sub_le _ _
  · intro m hdvd hle
    obtain ⟨k, rfl⟩ := hdvd
    have hk : k ≤ (2 ^ 32 - 1) / env.range := by
      rw [Nat.le_div_iff_mul_le h1, Nat.mul_comm]
      exact hle
    calc env.range * k ≤ env.range * ((2 ^ 32 - 1) / env.range) :=
          Nat.mul_le_mul_left _ hk
      _ = (2 ^ 32 - 1) / env.range * env.range := Nat.mul_comm _ _
      _ = limitOf env.range := hA.symm
  · intro hacc
    have hnogrow : ¬ (st.cursor + 4 > st.digest.length) := by omega
    simp only [step, if_neg hnogrow]
    rw [if_pos hacc]
    split
    · rfl
    · rfl
  · intro hrej
    have hnogrow : ¬ (st.cursor + 4 > st.digest.length) := by omega
    have hno : ¬ (readUInt32BE st.digest st.cursor < env.limit) := by omega
    simp only [step, if_neg hnogrow]
    rw [if_neg hno]


/-- C1, witness: the amended theorem instantiated at `range = 10` and the
initial loop state of a concrete environment. -/
theorem C1_sampler_amended_witness :
    (0 < 10 ∧ c1Env.range = 10 ∧ c1Env.limit = limitOf 10 ∧
      (initState c1Env).cursor + 4 ≤ (initState c1Env).digest.length) ∧
    (limitOf 10 = (2 ^ 32 - 1) / 10 * 10 ∧
      10 ∣ limitOf 10 ∧
      limitOf 10 ≤ 2 ^ 32 - 1 ∧
      (∀ m : Nat, 10 ∣ m → m ≤ 2 ^ 32 - 1 → m ≤ limitOf 10) ∧
      (step c1Env (initState c1Env)).cursor = (initState c1Env).cursor + 4 ∧
      (readUInt32BE (initState c1Env).digest (initState c1Env).cursor < c1Env.limit →
        (step c1Env (initState c1Env)).results =
          if (initState c1Env).results.contains
              (((readUInt32BE (initState c1Env).digest (initState c1Env).cursor % 10 : Nat) : Int)
                + c1Env.lower)
            then (initState c1Env).results
            else (initState c1Env).results ++
              [((readUInt32BE (initState c1Env).digest (initState c1Env).cursor % 10 : Nat) : Int)
                + c1Env.lower]) ∧
      (c1Env.limit ≤ readUInt32BE (initState c1Env).digest (initState c1Env).cursor →
        (step c1Env (initState c1Env)).results = (initState c1Env).results)) :=
  ⟨⟨by decide, rfl, rfl, by decide⟩,
    C1_sampler_amended 10 c1Env (initState c1Env) (by decide) rfl rfl (by decide)⟩

/-- C2: whenever `getUniqueNumbersFromRange` is called with `count > 0`,
`upper ≥ lower` and `count ≤ upper - lower + 1` and its loop terminates
with a result, the returned array has exactly `count` pairwise-distinct
elements, all within `[lower, upper]`. -/
theorem C2_result_set (hmac : String → String → List Nat) (fuel : Nat)
    (count lower upper : Int) (serverSeed : String) (nonce : Nat) (clientSeed : String)
    (res : List Int)
    (h1 : 0 < count) (h2 : lower ≤ upper) (h3 : count ≤ upper - lower + 1)
    (hrun : getUniqueNumbersFromRange hmac fuel count (lower, upper) serverSeed nonce clientSeed
      = .ok (some res)) :
    res.length = count.toNat ∧ res.Nodup ∧ ∀ x ∈ res, lower ≤ x ∧ x ≤ upper :=
  getUnique_ok_spec hmac fuel count lower upper serverSeed nonce clientSeed res h1 h2 h3 hrun

/-- C2, witness: a concrete terminating run with `count = 2` over
`[0, 9]` returning `[1, 7]`. -/
theorem C2_result_set_witness :
    ((0 : Int) < 2 ∧ (0 : Int) ≤ 9 ∧ (2 : Int) ≤ 9 - 0 + 1 ∧
      getUniqueNumbersFromRange toyHmac 5 2 (0, 9) "s" 0 "c" = .ok (some [1, 7])) ∧
    (([1, 7] : List Int).length = (2 : Int).toNat ∧ ([1, 7] : List Int).Nodup ∧
      ∀ x ∈ ([1, 7] : List Int), (0 : Int) ≤ x ∧ x ≤ 9) :=
  ⟨⟨by decide, by decide, by decide, by rfl⟩,
    C2_result_set toyHmac 5 2 0 9 "s" 0 "c" [1, 7] (by decide) (by decide) (by decide) (by rfl)⟩

/-- C6: `getUniqueNumbersFromRange` raises an error iff a precondition
is violated, and the kind matches the violation in check order:
`count ≤ 0` raises the count error (`'count must be > 0'`, the spec's
InvalidRange), then `upper < lower` raises `'upper must be ≥ lower'`
(InvalidBounds), then `count > upper - lower + 1` raises
`'Cannot generate …'` (InvalidRange); the call never raises any other
error, and when all preconditions hold it returns normally. -/
theorem C6_error_kinds (hmac : String → String → List Nat) (fuel : Nat)
    (count lower upper : Int) (serverSeed : String) (nonce : Nat) (clientSeed : String) :
    (getUniqueNumbersFromRange hmac fuel count (lower, upper) serverSeed nonce clientSeed =
        .error .countNonpos ↔ count ≤ 0) ∧
    (getUniqueNumbersFromRange hmac fuel count (lower, upper) serverSeed nonce clientSeed =
        .error .invalidBounds ↔ (0 < count ∧ upper < lower)) ∧
    (getUniqueNumbersFromRange hmac fuel count (lower, upper) serverSeed nonce clientSeed =
        .error .countExceedsRange ↔ (0 < count ∧ lower ≤ upper ∧ upper - lower + 1 < count)) ∧
    (getUniqueNumbersFromRange hmac fuel count (lower, upper) serverSeed nonce clientSeed ≠
        .error .noNumbers) ∧
    (0 < count → lower ≤ upper → count ≤ upper - lower + 1 →
      ∃ v, getUniqueNumbersFromRange hmac fuel count (lower, upper) serverSeed nonce clientSeed
        = .ok v) :=
  getUnique_error_spec hmac fuel count lower upper serverSeed nonce clientSeed

/-- C8: with `count = upper - lower + 1` the call returns, for any
seeds, nonce and fuel, the full interval `[lower, upper]` in increasing
order — each integer exactly once. -/
theorem C8_full_range (hmac : String → String → List Nat) (fuel : Nat)
    (serverSeed : String) (nonce : Nat) (clientSeed : String) (lower upper : Int)
    (h : lower ≤ upper) :
    getUniqueNumbersFromRange hmac fuel (upper - lower + 1) (lower, upper) serverSeed nonce
        clientSeed =
      .ok (some ((List.range (upper - lower + 1).toNat).map
        (fun (i : Nat) => lower + (i : Int)))) ∧
    ((List.range (upper - lower + 1).toNat).map (fun (i : Nat) => lower + (i : Int))).Nodup ∧
    ∀ x : Int,
      x ∈ (List.range (upper - lower + 1).toNat).map (fun (i : Nat) => lower + (i : Int)) ↔
        lower ≤ x ∧ x ≤ upper := by
  have h1 : (0 : Int) < upper - lower + 1 := by omega
  have hrw := getUnique_eq_run hmac fuel (upper - lower + 1) (lower, upper) serverSeed nonce
    clientSeed h1 (by simpa using h) (by simp)
  have htc : (mkEnv hmac (upper - lower + 1) (lower, upper) serverSeed nonce
      clientSeed).targetCount = 0 := by
    rw [mkEnv_target]
    dsimp only
    rw [if_pos (by omega)]
    omega
  have hloop : sampleLoop (mkEnv hmac (upper - lower + 1) (lower, upper) serverSeed nonce
        clientSeed) fuel
      (initState (mkEnv hmac (upper - lower + 1) (lower, upper) serverSeed nonce clientSeed)) =
      some [] := by
    rw [sampleLoop.eq_def]
    dsimp only
    rw [if_neg (by simp [initState, htc])]
    rfl
  rw [hrw, hloop]
  dsimp only
  rw [if_pos (by omega)]
  refine ⟨?_, nodup_rangeMap _ _, ?_⟩
  · have hinv : invertResults lower (upper - lower + 1).toNat [] =
        (List.range (upper - lower + 1).toNat).map (fun (i : Nat) => lower + (i : Int)) := by
      simp [invertResults]
    rw [hinv]
  · intro x
    rw [mem_rangeMap]
    constructor
    · rintro ⟨ha, hb⟩
      exact ⟨ha, by omega⟩
    · rintro ⟨ha, hb⟩
      exact ⟨ha, by omega⟩

/-- C8, witness: full range over `[0, 2]`. -/
theorem C8_full_range_witness :
    ((0 : Int) ≤ 2) ∧
    (getUniqueNumbersFromRange toyHmac 3 ((2 : Int) - 0 + 1) (0, 2) "s" 7 "c" =
        .ok (some ((List.range ((2 : Int) - 0 + 1).toNat).map
          (fun (i : Nat) => (0 : Int) + (i : Int)))) ∧
      ((List.range ((2 : Int) - 0 + 1).toNat).map (fun (i : Nat) => (0 : Int) + (i : Int))).Nodup ∧
      ∀ x : Int,
        x ∈ (List.range ((2 : Int) - 0 + 1).toNat).map (fun (i : Nat) => (0 : Int) + (i : Int)) ↔
          (0 : Int) ≤ x ∧ x ≤ 2) :=
  ⟨by decide, C8_full_range toyHmac 3 "s" 7 "c" 0 2 (by decide)⟩

theorem step_digest (env : LoopEnv) (st : LoopState) :
    (step env st).digest =
      if st.cursor + 4 > st.digest.length then
        st.digest ++ env.hmac env.serverSeed (env.baseMsg ++ ":" ++ toString (st.digestIndex + 1))
      else st.digest := by
  simp only [step]
  split
  · split
    · split
      · rfl
      · rfl
    · rfl
  · split
    · split
      · rfl
      · rfl
    · rfl

theorem step_digestIndex (env : LoopEnv) (st : LoopState) :
    (step env st).digestIndex =
      if st.cursor + 4 > st.digest.length then st.digestIndex + 1 else st.digestIndex := by
  simp only [step]
  split
  · split
    · split
      · rfl
      · rfl
    · rfl
  · split
    · split
      · rfl
      · rfl
    · rfl

theorem concatDigests_succ (hmac : String → String → List Nat) (serverSeed baseMsg : String)
    (n : Nat) :
    concatDigests hmac serverSeed baseMsg (n + 1) =
      concatDigests hmac serverSeed baseMsg n ++ hmac serverSeed (blockMsg baseMsg n) := by
  unfold concatDigests
  rw [List.range_succ, List.map_append, List.flatten_append]
  simp

theorem concatDigests_length (hmac : String → String → List Nat) (serverSeed baseMsg : String)
    (hlen : ∀ msg, (hmac serverSeed msg).length = 32) (n : Nat) :
    (concatDigests hmac serverSeed baseMsg n).length = 32 * n := by
  induction n with
  | zero => rfl
  | succ n ih =>
    rw [concatDigests_succ, List.length_append, ih, hlen]
    omega

theorem concatDigests_prefix (hmac : String → String → List Nat) (serverSeed baseMsg : String)
    {m M : Nat} (h : m ≤ M) :
    ∃ t, concatDigests hmac serverSeed baseMsg M = concatDigests hmac serverSeed baseMsg m ++ t := by
  induction M with
  | zero =>
    obtain rfl : m = 0 := by omega
    exact ⟨[], by simp⟩
  | succ M ih =>
    rcases Nat.lt_or_ge m (M + 1) with hlt | hge
    · obtain ⟨t, ht⟩ := ih (by omega)
      exact ⟨t ++ hmac serverSeed (blockMsg baseMsg M), by
        rw [concatDigests_succ, ht, List.append_assoc]⟩
    · obtain rfl : m = M + 1 := by omega
      exact ⟨[], by simp⟩

theorem readUInt32BE_prefix (l t : List Nat) (off : Nat) (h : off + 4 ≤ l.length) :
    readUInt32BE (l ++ t) off = readUInt32BE l off := by
  unfold readUInt32BE
  rw [List.getD_append _ _ _ _ (by omega), List.getD_append _ _ _ _ (by omega),
    List.getD_append _ _ _ _ (by omega), List.getD_append _ _ _ _ (by omega)]

theorem stepIter_spec (env : LoopEnv)
    (hlen : ∀ msg, (env.hmac env.serverSeed msg).length = 32) :
    ∀ n : Nat,
      (stepIter env n).digest =
        concatDigests env.hmac env.serverSeed env.baseMsg ((stepIter env n).digestIndex + 1) ∧
      (stepIter env n).cursor = 4 * n ∧
      4 * n ≤ 32 * ((stepIter env n).digestIndex + 1) ∧
      32 * (stepIter env n).digestIndex < 4 * n + 4 := by
  intro n
  induction n with
  | zero =>
    have h0 : stepIter env 0 = initState env := rfl
    rw [h0]
    refine ⟨?_, rfl, by simp [initState], by simp [initState]⟩
    have h1 : (initState env).digestIndex = 0 := rfl
    rw [h1]
    simp [initState, concatDigests, blockMsg, List.range_succ]
  | succ n ih =>
    obtain ⟨hdig, hcur, hub, hlb⟩ := ih
    have hdlen : (stepIter env n).digest.length = 32 * ((stepIter env n).digestIndex + 1) := by
      rw [hdig, concatDigests_length env.hmac env.serverSeed env.baseMsg hlen]
    have hstep : stepIter env (n + 1) = step env (stepIter env n) := rfl
    by_cases hext : (stepIter env n).cursor + 4 > (stepIter env n).digest.length
    · have hdi : (stepIter env (n + 1)).digestIndex = (stepIter env n).digestIndex + 1 := by
        rw [hstep, step_digestIndex, if_pos hext]
      have hd : (stepIter env (n + 1)).digest =
          (stepIter env n).digest ++
            env.hmac env.serverSeed
              (env.baseMsg ++ ":" ++ toString ((stepIter env n).digestIndex + 1)) := by
        rw [hstep, step_digest, if_pos hext]
      have hc : (stepIter env (n + 1)).cursor = 4 * (n + 1) := by
        rw [hstep, step_cursor, hcur]; omega
      refine ⟨?_, hc, ?_, ?_⟩
      · rw [hd, hdi, hdig]
        rw [concatDigests_succ env.hmac env.serverSeed env.baseMsg
          ((stepIter env n).digestIndex + 1)]
        exact rfl
      · rw [hdi]; omega
      · rw [hdi]
        rw [hcur, hdlen] at hext
        omega
    · have hdi : (stepIter env (n + 1)).digestIndex = (stepIter env n).digestIndex := by
        rw [hstep, step_digestIndex, if_neg hext]
      have hd : (stepIter env (n + 1)).digest = (stepIter env n).digest := by
        rw [hstep, step_digest, if_neg hext]
      have hc : (stepIter env (n + 1)).cursor = 4 * (n + 1) := by
        rw [hstep, step_cursor, hcur]; omega
      rw [hcur, hdlen] at hext
      refine ⟨?_, hc, ?_, ?_⟩
      · rw [hd, hdi, hdig]
      · rw [hdi]; omega
      · rw [hdi]; omega

theorem stepIter_word (env : LoopEnv)
    (hlen : ∀ msg, (env.hmac env.serverSeed msg).length = 32) (n : Nat) :
    readUInt32BE (stepIter env (n + 1)).digest (4 * n) =
      streamWord env.hmac env.serverSeed env.baseMsg n := by
  obtain ⟨hdig, hcur, hub, hlb⟩ := stepIter_spec env hlen (n + 1)
  have hlen1 : 4 * n + 4 ≤ 32 * ((stepIter env (n + 1)).digestIndex + 1) := by omega
  have hlen2 : 4 * n + 4 ≤ 32 * (n / 8 + 1) := by omega
  unfold streamWord
  rw [hdig]
  rcases Nat.le_total ((stepIter env (n + 1)).digestIndex + 1) (n / 8 + 1) with hc | hc
  · obtain ⟨t, ht⟩ := concatDigests_prefix env.hmac env.serverSeed env.baseMsg hc
    rw [ht, readUInt32BE_prefix]
    rw [concatDigests_length env.hmac env.serverSeed env.baseMsg hlen]
    omega
  · obtain ⟨t, ht⟩ := concatDigests_prefix env.hmac env.serverSeed env.baseMsg hc
    rw [ht, readUInt32BE_prefix]
    rw [concatDigests_length env.hmac env.serverSeed env.baseMsg hlen]
    omega

theorem sampleLoop_reaches (env : LoopEnv) :
    ∀ (fuel k : Nat) (res : List Int),
      sampleLoop env fuel (stepIter env k) = some res →
      ∃ n : Nat, res = (stepIter env n).results := by
  intro fuel
  induction fuel with
  | zero =>
    intro k res hrun
    rw [sampleLoop.eq_def] at hrun
    dsimp only at hrun
    split at hrun
    · simp at hrun
    · exact ⟨k, by simpa using hrun.symm⟩
  | succ fuel ih =>
    intro k res hrun
    rw [sampleLoop.eq_def] at hrun
    dsimp only at hrun
    split at hrun
    · exact ih (k + 1) res hrun
    · exact ⟨k, by simpa using hrun.symm⟩

theorem step_results_formula (env : LoopEnv) (st : LoopState) :
    (step env st).results =
      if readUInt32BE (step env st).digest st.cursor < env.limit then
        insertDraw st.results
          (((readUInt32BE (step env st).digest st.cursor % env.range : Nat) : Int) + env.lower)
      else st.results := by
  rw [step_digest]
  unfold insertDraw
  simp only [step]
  split
  · split
    · split
      · rfl
      · rfl
    · rfl
  · split
    · split
      · rfl
      · rfl
    · rfl

theorem acceptedDraws_succ (env : LoopEnv) (n : Nat) :
    acceptedDraws env (n + 1) =
      acceptedDraws env n ++
        (if streamWord env.hmac env.serverSeed env.baseMsg n < env.limit then
          [((streamWord env.hmac env.serverSeed env.baseMsg n % env.range : Nat) : Int) +
            env.lower]
        else []) := by
  unfold acceptedDraws
  rw [List.range_succ, List.map_append, List.filterMap_append]
  by_cases h : streamWord env.hmac env.serverSeed env.baseMsg n < env.limit
  · simp [h]
  · simp [h]

theorem dedupFirst_snoc (l : List Int) (v : Int) :
    dedupFirst (l ++ [v]) = insertDraw (dedupFirst l) v := by
  unfold dedupFirst
  rw [List.foldl_append]
  rfl

theorem stepIter_results (env : LoopEnv)
    (hlen : ∀ msg, (env.hmac env.serverSeed msg).length = 32) :
    ∀ n : Nat, (stepIter env n).results = dedupFirst (acceptedDraws env n) := by
  intro n
  induction n with
  | zero => rfl
  | succ n ih =>
    have hcur : (stepIter env n).cursor = 4 * n := (stepIter_spec env hlen n).2.1
    have hword : readUInt32BE (stepIter env (n + 1)).digest (4 * n) =
        streamWord env.hmac env.serverSeed env.baseMsg n := stepIter_word env hlen n
    have hform := step_results_formula env (stepIter env n)
    rw [hcur] at hform
    have hstep : stepIter env (n + 1) = step env (stepIter env n) := rfl
    rw [hstep] at hword
    rw [acceptedDraws_succ]
    rw [show (stepIter env (n + 1)).results = (step env (stepIter env n)).results from rfl]
    rw [hform, hword, ih]
    split
    · next h =>
      rw [dedupFirst_snoc]
    · next h =>
      simp

/-- C3: every keyed-hash invocation of `getUniqueNumbersFromRange` keys
on `serverSeed`; the block-0 message is `clientSeed ++ ":" ++ nonce` and
block `i ≥ 1` hashes `clientSeed ++ ":" ++ nonce ++ ":" ++ i`; after `n`
loop iterations the buffer is exactly the concatenation of blocks
`0 … digestIndex` (generated in increasing order), a new block having
been fetched only once the buffered bytes were exhausted
(`32·digestIndex < 4n + 4 ≤ 32·(digestIndex+1)`), and the candidate
examined at iteration `n` is word `n` of the concatenated digest stream
— consecutive, non-overlapping 4-byte big-endian words; finally every
loop result is the working set of some iterate. -/
theorem C3_hmac_stream (hmac : String → String → List Nat) (count : Int) (rng : Int × Int)
    (serverSeed : String) (nonce : Nat) (clientSeed : String)
    (hlen : ∀ msg, (hmac serverSeed msg).length = 32) (n : Nat) :
    (mkEnv hmac count rng serverSeed nonce clientSeed).baseMsg =
        clientSeed ++ ":" ++ toString nonce ∧
    blockMsg (clientSeed ++ ":" ++ toString nonce) 0 = clientSeed ++ ":" ++ toString nonce ∧
    (∀ i : Nat, 0 < i → blockMsg (clientSeed ++ ":" ++ toString nonce) i =
        clientSeed ++ ":" ++ toString nonce ++ ":" ++ toString i) ∧
    (stepIter (mkEnv hmac count rng serverSeed nonce clientSeed) n).digest =
      concatDigests hmac serverSeed (clientSeed ++ ":" ++ toString nonce)
        ((stepIter (mkEnv hmac count rng serverSeed nonce clientSeed) n).digestIndex + 1) ∧
    (stepIter (mkEnv hmac count rng serverSeed nonce clientSeed) n).cursor = 4 * n ∧
    4 * n ≤ 32 * ((stepIter (mkEnv hmac count rng serverSeed nonce clientSeed) n).digestIndex + 1) ∧
    32 * (stepIter (mkEnv hmac count rng serverSeed nonce clientSeed) n).digestIndex < 4 * n + 4 ∧
    readUInt32BE (stepIter (mkEnv hmac count rng serverSeed nonce clientSeed) (n + 1)).digest
        (4 * n) =
      streamWord hmac serverSeed (clientSeed ++ ":" ++ toString nonce) n ∧
    ∀ (fuel : Nat) (res : List Int),
      sampleLoop (mkEnv hmac count rng serverSeed nonce clientSeed) fuel
          (initState (mkEnv hmac count rng serverSeed nonce clientSeed)) = some res →
      ∃ k : Nat, res = (stepIter (mkEnv hmac count rng serverSeed nonce clientSeed) k).results := by
  refine ⟨rfl, ?_, ?_, ?_, ?_, ?_, ?_, ?_, ?_⟩
  · unfold blockMsg
    rw [if_pos rfl]
  · intro i hi
    unfold blockMsg
    rw [if_neg (by omega)]
  · exact (stepIter_spec (mkEnv hmac count rng serverSeed nonce clientSeed) hlen n).1
  · exact (stepIter_spec (mkEnv hmac count rng serverSeed nonce clientSeed) hlen n).2.1
  · exact (stepIter_spec (mkEnv hmac count rng serverSeed nonce clientSeed) hlen n).2.2.1
  · exact (stepIter_spec (mkEnv hmac count rng serverSeed nonce clientSeed) hlen n).2.2.2
  · exact stepIter_word (mkEnv hmac count rng serverSeed nonce clientSeed) hlen n
  · intro fuel res hrun
    exact sampleLoop_reaches (mkEnv hmac count rng serverSeed nonce clientSeed) fuel 0 res hrun

/-- C9: on the inversion path (`count > totalRange/2`) the returned
array is sorted in strictly increasing order; on the direct path
(`count ≤ totalRange/2`, with 256-bit digests) the array lists the
accepted draws of the digest stream in the order of their first
acceptance. -/
theorem C9_output_order (hmac : String → String → List Nat) (fuel : Nat)
    (count lower upper : Int) (serverSeed : String) (nonce : Nat) (clientSeed : String)
    (res : List Int)
    (h1 : 0 < count) (h2 : lower ≤ upper) (h3 : count ≤ upper - lower + 1)
    (hlen : ∀ msg, (hmac serverSeed msg).length = 32)
    (hrun : getUniqueNumbersFromRange hmac fuel count (lower, upper) serverSeed nonce clientSeed
      = .ok (some res)) :
    (2 * count > upper - lower + 1 → res.Pairwise (· < ·)) ∧
    (2 * count ≤ upper - lower + 1 →
      ∃ n : Nat, res = dedupFirst
        (acceptedDraws (mkEnv hmac count (lower, upper) serverSeed nonce clientSeed) n)) := by
  rw [getUnique_eq_run hmac fuel count (lower, upper) serverSeed nonce clientSeed h1
    (by simpa using h2) (by simpa using h3)] at hrun
  cases hloop : sampleLoop (mkEnv hmac count (lower, upper) serverSeed nonce clientSeed) fuel
      (initState (mkEnv hmac count (lower, upper) serverSeed nonce clientSeed)) with
  | none => rw [hloop] at hrun; simp at hrun
  | some r =>
    rw [hloop] at hrun
    dsimp only at hrun
    constructor
    · intro hinv
      rw [if_pos hinv] at hrun
      obtain rfl : invertResults lower (upper - lower + 1).toNat r = res := by simpa using hrun
      exact invertResults_sorted _ _ _
    · intro hdir
      rw [if_neg (by omega)] at hrun
      obtain rfl : r = res := by simpa using hrun
      obtain ⟨k, hk⟩ := sampleLoop_reaches
        (mkEnv hmac count (lower, upper) serverSeed nonce clientSeed) fuel 0 r hloop
      refine ⟨k, ?_⟩
      rw [hk, stepIter_results (mkEnv hmac count (lower, upper) serverSeed nonce clientSeed)
        hlen k]

/-- C7: for `totalRange/2 < count < totalRange`, the set returned by
`getUniqueNumbersFromRange count` (inverted path) is exactly the
complement within `[lower, upper]` of the set returned by
`getUniqueNumbersFromRange (totalRange - count)` (direct path) under
the same seeds, nonce and fuel. -/
theorem C7_inversion_complement (hmac : String → String → List Nat) (fuel : Nat)
    (count lower upper : Int) (serverSeed : String) (nonce : Nat) (clientSeed : String)
    (l1 l2 : List Int)
    (h2 : lower ≤ upper) (hhalf : upper - lower + 1 < 2 * count)
    (hlt : count < upper - lower + 1)
    (hrun1 : getUniqueNumbersFromRange hmac fuel count (lower, upper) serverSeed nonce clientSeed
      = .ok (some l1))
    (hrun2 : getUniqueNumbersFromRange hmac fuel (upper - lower + 1 - count) (lower, upper)
      serverSeed nonce clientSeed = .ok (some l2)) :
    ∀ x : Int, x ∈ l1 ↔ lower ≤ x ∧ x ≤ upper ∧ x ∉ l2 := by
  have h1 : (0 : Int) < count := by omega
  have h1' : (0 : Int) < upper - lower + 1 - count := by omega
  have henv : mkEnv hmac (upper - lower + 1 - count) (lower, upper) serverSeed nonce clientSeed =
      mkEnv hmac count (lower, upper) serverSeed nonce clientSeed := by
    unfold mkEnv
    dsimp only
    rw [if_neg (by omega), if_pos (by omega)]
  rw [getUnique_eq_run hmac fuel count (lower, upper) serverSeed nonce clientSeed h1
    (by simpa using h2) (by dsimp only; omega)] at hrun1
  rw [getUnique_eq_run hmac fuel (upper - lower + 1 - count) (lower, upper) serverSeed nonce
    clientSeed h1' (by simpa using h2) (by dsimp only; omega), henv] at hrun2
  cases hloop : sampleLoop (mkEnv hmac count (lower, upper) serverSeed nonce clientSeed) fuel
      (initState (mkEnv hmac count (lower, upper) serverSeed nonce clientSeed)) with
  | none => rw [hloop] at hrun1; simp at hrun1
  | some r =>
    rw [hloop] at hrun1 hrun2
    dsimp only at hrun1 hrun2
    rw [if_pos (by omega)] at hrun1
    rw [if_neg (by omega)] at hrun2
    obtain rfl : invertResults lower (upper - lower + 1).toNat r = l1 := by simpa using hrun1
    obtain rfl : r = l2 := by simpa using hrun2
    intro x
    rw [invertResults_mem]
    constructor
    · rintro ⟨ha, hb, hc⟩
      exact ⟨ha, by omega, hc⟩
    · rintro ⟨ha, hb, hc⟩
      exact ⟨ha, by omega, hc⟩

/-- C10: for `upper ≥ lower`, `getNumberFromRange` never raises
`'Failed to generate any numbers'`: whenever the inner
`getUniqueNumbersFromRange` call with `count = 1` returns, it returns a
one-element array, so the empty-result branch is dead code and the sole
element is returned. -/
theorem C10_no_failed_generation (hmac : String → String → List Nat) (fuel : Nat)
    (lower upper : Int) (serverSeed : String) (nonce : Nat) (clientSeed : String)
    (h : lower ≤ upper) :
    getNumberFromRange hmac fuel (lower, upper) serverSeed nonce clientSeed ≠
        .error .noNumbers ∧
    ∀ l : List Int,
      getUniqueNumbersFromRange hmac fuel 1 (lower, upper) serverSeed nonce clientSeed =
        .ok (some l) →
      ∃ x : Int, l = [x] ∧
        getNumberFromRange hmac fuel (lower, upper) serverSeed nonce clientSeed =
          .ok (some x) := by
  unfold getNumberFromRange
  cases hinner : getUniqueNumbersFromRange hmac fuel 1 (lower, upper) serverSeed nonce
      clientSeed with
  | error e =>
    obtain ⟨v, hv⟩ := (getUnique_error_spec hmac fuel 1 lower upper serverSeed nonce
      clientSeed).2.2.2.2 (by omega) h (by omega)
    rw [hinner] at hv
    simp at hv
  | ok v =>
    cases v with
    | none =>
      constructor
      · simp
      · intro l hl
        simp at hl
    | some l =>
      obtain ⟨hlen, _, _⟩ := getUnique_ok_spec hmac fuel 1 lower upper serverSeed nonce
        clientSeed l (by omega) h (by omega) hinner
      obtain ⟨x, rfl⟩ : ∃ x, l = [x] := by
        have hl1 : l.length = 1 := by simpa using hlen
        exact List.length_eq_one.mp hl1
      constructor
      · simp
      · intro l' hl'
        obtain rfl : [x] = l' := by simpa using hl'
        exact ⟨x, rfl, by simp⟩

/-- C3, witness: the stream theorem instantiated at a 32-byte stub
oracle and `n = 2`. -/
theorem C3_hmac_stream_witness :
    (∀ msg : String, (toyHmac "s" msg).length = 32) ∧
    ((mkEnv toyHmac 2 (0, 9) "s" 0 "c").baseMsg = "c" ++ ":" ++ toString (0 : Nat) ∧
      blockMsg ("c" ++ ":" ++ toString (0 : Nat)) 0 = "c" ++ ":" ++ toString (0 : Nat) ∧
      (∀ i : Nat, 0 < i → blockMsg ("c" ++ ":" ++ toString (0 : Nat)) i =
          "c" ++ ":" ++ toString (0 : Nat) ++ ":" ++ toString i) ∧
      (stepIter (mkEnv toyHmac 2 (0, 9) "s" 0 "c") 2).digest =
        concatDigests toyHmac "s" ("c" ++ ":" ++ toString (0 : Nat))
          ((stepIter (mkEnv toyHmac 2 (0, 9) "s" 0 "c") 2).digestIndex + 1) ∧
      (stepIter (mkEnv toyHmac 2 (0, 9) "s" 0 "c") 2).cursor = 4 * 2 ∧
      4 * 2 ≤ 32 * ((stepIter (mkEnv toyHmac 2 (0, 9) "s" 0 "c") 2).digestIndex + 1) ∧
      32 * (stepIter (mkEnv toyHmac 2 (0, 9) "s" 0 "c") 2).digestIndex < 4 * 2 + 4 ∧
      readUInt32BE (stepIter (mkEnv toyHmac 2 (0, 9) "s" 0 "c") (2 + 1)).digest (4 * 2) =
        streamWord toyHmac "s" ("c" ++ ":" ++ toString (0 : Nat)) 2 ∧
      ∀ (fuel : Nat) (res : List Int),
        sampleLoop (mkEnv toyHmac 2 (0, 9) "s" 0 "c") fuel
            (initState (mkEnv toyHmac 2 (0, 9) "s" 0 "c")) = some res →
        ∃ k : Nat, res = (stepIter (mkEnv toyHmac 2 (0, 9) "s" 0 "c") k).results) :=
  ⟨fun _ => rfl, C3_hmac_stream toyHmac 2 (0, 9) "s" 0 "c" (fun _ => rfl) 2⟩

/-- C9, witness: a direct-path run with `count = 2` over `[0, 9]`. -/
theorem C9_output_order_witness :
    ((0 : Int) < 2 ∧ (0 : Int) ≤ 9 ∧ (2 : Int) ≤ 9 - 0 + 1 ∧
      (∀ msg : String, (toyHmac "s" msg).length = 32) ∧
      getUniqueNumbersFromRange toyHmac 5 2 (0, 9) "s" 0 "c" = .ok (some [1, 7])) ∧
    (((2 : Int) * 2 > 9 - 0 + 1 → ([1, 7] : List Int).Pairwise (· < ·)) ∧
      ((2 : Int) * 2 ≤ 9 - 0 + 1 →
        ∃ n : Nat, ([1, 7] : List Int) = dedupFirst
          (acceptedDraws (mkEnv toyHmac 2 (0, 9) "s" 0 "c") n))) :=
  ⟨⟨by decide, by decide, by decide, fun _ => rfl, by rfl⟩,
    C9_output_order toyHmac 5 2 0 9 "s" 0 "c" [1, 7] (by decide) (by decide) (by decide)
      (fun _ => rfl) (by rfl)⟩

/-- C7, witness: `count = 3` versus `count = 2` over `[0, 4]` with a
stub oracle: `[0, 3, 4]` is the complement of `[1, 2]`. -/
theorem C7_inversion_complement_witness :
    ((0 : Int) ≤ 4 ∧ (4 : Int) - 0 + 1 < 2 * 3 ∧ (3 : Int) < 4 - 0 + 1 ∧
      getUniqueNumbersFromRange toyHmac 10 3 (0, 4) "s" 0 "c" = .ok (some [0, 3, 4]) ∧
      getUniqueNumbersFromRange toyHmac 10 (4 - 0 + 1 - 3) (0, 4) "s" 0 "c" =
        .ok (some [1, 2])) ∧
    (∀ x : Int, x ∈ ([0, 3, 4] : List Int) ↔
      (0 : Int) ≤ x ∧ x ≤ 4 ∧ x ∉ ([1, 2] : List Int)) :=
  ⟨⟨by decide, by decide, by decide, by rfl, by rfl⟩,
    C7_inversion_complement toyHmac 10 3 0 4 "s" 0 "c" [0, 3, 4] [1, 2] (by decide) (by decide)
      (by decide) (by rfl) (by rfl)⟩

/-- C10, witness: a concrete run over `[3, 7]` returning `4`. -/
theorem C10_no_failed_generation_witness :
    ((3 : Int) ≤ 7) ∧
    (getNumberFromRange toyHmac 10 (3, 7) "s" 0 "c" ≠ .error .noNumbers ∧
      ∀ l : List Int,
        getUniqueNumbersFromRange toyHmac 10 1 (3, 7) "s" 0 "c" = .ok (some l) →
        ∃ x : Int, l = [x] ∧
          getNumberFromRange toyHmac 10 (3, 7) "s" 0 "c" = .ok (some x)) :=
  ⟨by decide, C10_no_failed_generation toyHmac 10 3 7 "s" 0 "c" (by decide)⟩

theorem jsChunks_eq_specChunks :
    ∀ l : List Char, (∀ c ∈ l, isLineTerm c = false) → jsChunks l = specChunks l
  | [], _ => rfl
  | [c], h => by
    simp [jsChunks, specChunks, h c (by simp)]
  | c :: c2 :: rest, h => by
    have hc : isLineTerm c = false := h c (by simp)
    have hc2 : isLineTerm c2 = false := h c2 (by simp)
    have ih := jsChunks_eq_specChunks rest (fun x hx => h x (by simp [hx]))
    simp [jsChunks, specChunks, hc, hc2, ih]

theorem saltOf_eq_saltSpec : ∀ seed : String,
    (∀ c ∈ seed.data, isLineTerm c = false) → saltOf seed = saltSpec seed := by
  intro ⟨l⟩ h
  unfold saltOf saltSpec
  dsimp only
  rw [jsChunks_eq_specChunks l h]
  cases l with
  | nil => rfl
  | cons c cs =>
    cases cs with
    | nil => rfl
    | cons c2 rest => rfl

theorem beBytes_lt : ∀ (k n : Nat), ∀ b ∈ beBytes k n, b < 256 := by
  intro k
  induction k with
  | zero => intro n b hb; simp [beBytes] at hb
  | succ k ih =>
    intro n b hb
    unfold beBytes at hb
    rcases List.mem_append.mp hb with hb | hb
    · exact ih _ b hb
    · simp at hb
      subst hb
      exact Nat.mod_lt _ (by omega)

theorem sha256_bytes_lt (msg : List Nat) : ∀ b ∈ sha256 msg, b < 256 := by
  intro b hb
  unfold sha256 at hb
  simp only [List.mem_append] at hb
  rcases hb with ((((((hb | hb) | hb) | hb) | hb) | hb) | hb) | hb <;>
    exact beBytes_lt _ _ b hb

theorem hexDigit_lt_mem : ∀ n : Nat, n < 16 →
    hexDigit n ∈ ("0123456789abcdef" : String).data := by decide

theorem bytesToHexChars_mem : ∀ l : List Nat, (∀ b ∈ l, b < 256) →
    ∀ c ∈ bytesToHexChars l,
      c ∈ ("0123456789abcdef" : String).data
  | [], _ => by simp [bytesToHexChars]
  | b :: bs, h => by
    intro c hc
    have hb : b < 256 := h b (by simp)
    have ih := bytesToHexChars_mem bs (fun x hx => h x (by simp [hx]))
    unfold bytesToHexChars at hc
    rcases hc with _ | ⟨_, hc⟩
    · exact hexDigit_lt_mem (b / 16) (by omega)
    · rcases hc with _ | ⟨_, hc⟩
      · exact hexDigit_lt_mem (b % 16) (by omega)
      · exact ih c hc

/-- C4, amended: for every seed free of line terminators, the code's
regex salt agrees with the spec's consecutive-2-character chunking, and
`getHashBySeed` returns the lowercase-hex encoding of HMAC-SHA256 of
the empty message under key `seed ++ salt`; the empty seed yields the
empty salt (salt = seed), and the output uses only lowercase hex
characters.  (For seeds containing `\n`, `\r`, U+2028 or U+2029 the
regex `/.{1,2}/g` skips those characters, so the claimed chunking fails
— see the counterexample.) -/
theorem C4_commitment_amended (seed : String)
    (h : ∀ c ∈ seed.data, isLineTerm c = false) :
    saltOf seed = saltSpec seed ∧
    getHashBySeed seed =
      bytesToHex (hmacSHA256 (strBytes (seed ++ saltSpec seed)) (strBytes "")) ∧
    saltSpec "" = "" ∧
    ∀ c ∈ (getHashBySeed seed).data,
      c ∈ ("0123456789abcdef" : String).data := by
  have hsalt := saltOf_eq_saltSpec seed h
  refine ⟨hsalt, ?_, by decide, ?_⟩
  · unfold getHashBySeed hmacStr
    rw [hsalt]
  · unfold getHashBySeed hmacStr bytesToHex
    intro c hc
    exact bytesToHexChars_mem _ (fun b hb => sha256_bytes_lt _ b hb) c (by simpa using hc)

/-- C4, witness: the amended theorem instantiated at seed `"ab12"`. -/
theorem C4_commitment_amended_witness :
    (∀ c ∈ ("ab12" : String).data, isLineTerm c = false) ∧
    (saltOf "ab12" = saltSpec "ab12" ∧
      getHashBySeed "ab12" =
        bytesToHex (hmacSHA256 (strBytes ("ab12" ++ saltSpec "ab12")) (strBytes "")) ∧
      saltSpec "" = "" ∧
      ∀ c ∈ (getHashBySeed "ab12").data,
        c ∈ ("0123456789abcdef" : String).data) :=
  ⟨by decide, C4_commitment_amended "ab12" (by decide)⟩

set_option maxRecDepth 100000 in
set_option maxHeartbeats 1000000 in
/-- C4, counterexample: at seed `"a\nb"` the code's salt is `"ba"`
(the regex skips the newline) while the claimed consecutive-2-character
chunking yields `"ba\n"`, and the resulting digests differ. -/
theorem C4_commitment_counterexample :
    getHashBySeed "a\nb" ≠
      bytesToHex (hmacSHA256 (strBytes ("a\nb" ++ saltSpec "a\nb")) (strBytes "")) := by
  decide

set_option maxRecDepth 100000 in
set_option maxHeartbeats 1000000 in
/-- C5: the two seed-commitment forms in the source are not equivalent:
`getHashBySeed` of `src/provably-fair.js` (key `seed ++ salt`, empty
message) and the variant embedded in `src/app.js` (key `seed`, message
`seed ++ salt`) produce different hex digests at seed `"ab"`. -/
theorem C5_commitment_forms_differ : getHashBySeed "ab" ≠ appGetHashBySeed "ab" := by
  decide
